import Mathlib

/-
Verification development for the mc4-panel-MVP solar-panel installation
tracker (src/src/App.jsx and the two earlier revisions under src/unnamed).

The embedding follows src/src/App.jsx, the current revision, which the
specification designates as authoritative (spec.md section 9 explicitly
adopts the per-end policies of the current revision over the older
counter-based variant found in src/unnamed/part_000 and part_001).

Modelling conventions:
- JavaScript numbers are modelled as rationals.  The only places where the
  float/rational distinction is observable for the claims under study are
  (a) division by zero (JS produces NaN or a signed Infinity), modelled
  by the `JF` type below, and (b) `Math.hypot`, which the source only ever
  feeds into order comparisons and which we therefore replace by the squared
  length (sqrt is strictly monotone on nonnegatives, so every comparison has
  the same outcome).  The literals `1e-9` and `1e-6` are modelled as the
  exact rationals 10^-9 and 10^-6.
- The JS object `panelStates` (integer keys to `{left, right}` records) is
  modelled as an association list with unique keys; `Object.values` becomes
  the list of entries, and absent keys read as the default `(NONE, NONE)`
  exactly as `prev[index]?.[side] || PANEL_STATES.NONE` does in the source.
- `Array.prototype.sort` is stable (ES2019); it is modelled by a stable
  insertion sort parameterised by the comparator's "comes no later" relation.
- React state updates performed inside one event handler are modelled as one
  pure step function on an `AppState` record holding `panelStates`,
  `history` and `historyIndex` (the source keeps `historyRef` /
  `historyIndexRef` in sync with the state, so a single record is faithful).
-/

namespace Mc4Panel

/-- A point in SVG/canvas coordinates (the `{x, y}` records of the source). -/
structure Point where
  x : ℚ
  y : ℚ
deriving DecidableEq, Repr

/-- The bounding box `boundsRef.current` computed at load time in App.jsx
(lines 458-472): min/max longitude and latitude of all loaded geometry,
widened by a 0.001 padding. -/
structure Bounds where
  minLng : ℚ
  maxLng : ℚ
  minLat : ℚ
  maxLat : ℚ
deriving DecidableEq, Repr

/-- The fixed drawing area `canvasSize` of App.jsx (line 351). -/
structure Canvas where
  width : ℚ
  height : ℚ
deriving DecidableEq, Repr

/-- One GeoJSON panel feature: its `geometry.coordinates` list of
longitude/latitude pairs.  Label text is irrelevant to every claim. -/
structure Feature where
  coords : List (ℚ × ℚ)
deriving DecidableEq, Repr

/-- `toSvgCoords` of App.jsx lines 483-489.  The source returns `{x:0,y:0}`
when `boundsRef.current` is still null, hence the `Option Bounds` argument. -/
def toSvgCoords (b? : Option Bounds) (c : Canvas) (lng lat : ℚ) : Point :=
  match b? with
  | Option.none => ⟨0, 0⟩
  | Option.some b =>
    ⟨(lng - b.minLng) / (b.maxLng - b.minLng) * c.width,
     (b.maxLat - lat) / (b.maxLat - b.minLat) * c.height⟩

/-- `fromSvgCoords` of App.jsx lines 492-498 (canvas back to geographic). -/
def fromSvgCoords (b? : Option Bounds) (c : Canvas) (svgX svgY : ℚ) : ℚ × ℚ :=
  match b? with
  | Option.none => (0, 0)
  | Option.some b =>
    (svgX / c.width * (b.maxLng - b.minLng) + b.minLng,
     b.maxLat - svgY / c.height * (b.maxLat - b.minLat))

/-- JavaScript double values as far as finiteness is observable: a finite
value (kept exact as a rational; rounding never affects finiteness for the
inputs of this program), the two infinities, or NaN. -/
inductive JF where
  | num : ℚ → JF
  | posInf : JF
  | negInf : JF
  | nan : JF
deriving DecidableEq, Repr

/-- IEEE-754 subtraction restricted to the cases reachable here. -/
def jsub : JF → JF → JF
  | JF.num a, JF.num b => JF.num (a - b)
  | JF.num _, JF.posInf => JF.negInf
  | JF.num _, JF.negInf => JF.posInf
  | JF.posInf, JF.num _ => JF.posInf
  | JF.negInf, JF.num _ => JF.negInf
  | JF.posInf, JF.negInf => JF.posInf
  | JF.negInf, JF.posInf => JF.negInf
  | _, _ => JF.nan

/-- IEEE-754 division: a nonzero finite value divided by (positive) zero is a
signed infinity, and 0/0 is NaN -- this is what the unguarded divisions of
`toSvgCoords` produce on a degenerate bounding box. -/
def jdiv : JF → JF → JF
  | JF.num a, JF.num b =>
    if b = 0 then
      (if a = 0 then JF.nan else if 0 < a then JF.posInf else JF.negInf)
    else JF.num (a / b)
  | JF.posInf, JF.num b => if 0 ≤ b then JF.posInf else JF.negInf
  | JF.negInf, JF.num b => if 0 ≤ b then JF.negInf else JF.posInf
  | JF.num _, JF.posInf => JF.num 0
  | JF.num _, JF.negInf => JF.num 0
  | _, _ => JF.nan

/-- IEEE-754 multiplication: infinity times zero is NaN, NaN propagates. -/
def jmul : JF → JF → JF
  | JF.num a, JF.num b => JF.num (a * b)
  | JF.posInf, JF.num b =>
    if b = 0 then JF.nan else if 0 < b then JF.posInf else JF.negInf
  | JF.negInf, JF.num b =>
    if b = 0 then JF.nan else if 0 < b then JF.negInf else JF.posInf
  | JF.num a, JF.posInf =>
    if a = 0 then JF.nan else if 0 < a then JF.posInf else JF.negInf
  | JF.num a, JF.negInf =>
    if a = 0 then JF.nan else if 0 < a then JF.negInf else JF.posInf
  | JF.posInf, JF.posInf => JF.posInf
  | JF.posInf, JF.negInf => JF.negInf
  | JF.negInf, JF.posInf => JF.negInf
  | JF.negInf, JF.negInf => JF.posInf
  | _, _ => JF.nan

/-- Finiteness of a JS number (`Number.isFinite`). -/
def JF.isFinite : JF → Bool
  | JF.num _ => true
  | _ => false

/-- `toSvgCoords` re-expressed over `JF`, exposing the float behaviour of the
two divisions on lines 486-487 of App.jsx.  On a non-degenerate bounding box
all intermediate values stay finite and this agrees with `toSvgCoords`. -/
def toSvgCoordsJS (b : Bounds) (c : Canvas) (lng lat : ℚ) : JF × JF :=
  (jmul (jdiv (jsub (JF.num lng) (JF.num b.minLng))
              (jsub (JF.num b.maxLng) (JF.num b.minLng)))
        (JF.num c.width),
   jmul (jdiv (jsub (JF.num b.maxLat) (JF.num lat))
              (jsub (JF.num b.maxLat) (JF.num b.minLat)))
        (JF.num c.height))

/-- The exact rational standing for the source literal `1e-9`. -/
def eps9 : ℚ := 1 / 1000000000

/-- The exact rational standing for the source literal `1e-6`. -/
def eps6 : ℚ := 1 / 1000000

/-- Closing-point removal of App.jsx lines 558-562 (and Panel lines 112-116):
when the first and last coordinates agree within 1e-9 in both components the
list is treated as a closed ring and the last point is dropped. -/
def uniquePts (coords : List (ℚ × ℚ)) : List (ℚ × ℚ) :=
  match coords with
  | [] => []
  | c0 :: rest =>
    let cl := (c0 :: rest).getLastD c0
    if |c0.1 - cl.1| < eps9 ∧ |c0.2 - cl.2| < eps9 then
      (c0 :: rest).dropLast
    else
      c0 :: rest

/-- One polygon edge as built in App.jsx lines 567-573: endpoints, length and
midpoint.  `lenSq` holds the squared euclidean length where the source stores
`Math.hypot(dx, dy)`; the source only ever compares lengths (the sort
comparator `a.len - b.len`), and squaring is strictly monotone on
nonnegatives, so every comparison agrees. -/
structure Edge where
  p1 : Point
  p2 : Point
  lenSq : ℚ
  center : Point
deriving DecidableEq, Repr

/-- The edge list of a polygon (App.jsx lines 567-573): edge `i` joins vertex
`i` to vertex `(i+1) % n`. -/
def mkEdges (pts : List Point) : List Edge :=
  (List.range pts.length).map (fun i =>
    let p1 := pts.getD i ⟨0, 0⟩
    let p2 := pts.getD ((i + 1) % pts.length) ⟨0, 0⟩
    ⟨p1, p2, (p2.x - p1.x) * (p2.x - p1.x) + (p2.y - p1.y) * (p2.y - p1.y),
     ⟨(p1.x + p2.x) / 2, (p1.y + p2.y) / 2⟩⟩)

/-- Stable insertion of an element into a sorted list: the element goes in
front of the first entry it "comes no later" than.  With a total preorder
this reproduces ES2019 `Array.prototype.sort`, which is specified stable. -/
def insertSorted (le : Edge → Edge → Bool) (e : Edge) : List Edge → List Edge
  | [] => [e]
  | f :: fs => if le e f then e :: f :: fs else f :: insertSorted le e fs

/-- Stable insertion sort modelling `edges.sort(cmp)` in the source. -/
def stableSort (le : Edge → Edge → Bool) : List Edge → List Edge
  | [] => []
  | e :: es => insertSorted le e (stableSort le es)

/-- The comparator `(a, b) => a.len - b.len` of App.jsx line 575 as a
"comes no later" relation. -/
def leLen (a b : Edge) : Bool := decide (a.lenSq ≤ b.lenSq)

/-- The comparator `(a, b) => (a.center.x - b.center.x) || (a.center.y -
b.center.y)` of App.jsx line 577 (lexicographic on the edge midpoint). -/
def leLex (a b : Edge) : Bool :=
  decide (a.center.x < b.center.x ∨ (a.center.x = b.center.x ∧ a.center.y ≤ b.center.y))

/-- Result record of `getPanelEnds` (App.jsx lines 585-590). -/
structure Ends where
  left : Point
  right : Point
  center : Point
  allPoints : List Point
deriving DecidableEq, Repr

/-- `getPanelEnds` of App.jsx lines 552-591: drop the closing point, project
to canvas space, build the edge list, sort ascending by length, keep the two
shortest, re-sort those two by midpoint (x then y), and fall back to the
vertex centroid for a missing edge (`shortEdges[k]?.center || center`).
Returns none when the panel index is out of range (`if (!panel) return null`).
On an empty vertex list the source centroid is `0/0 = NaN` where this model
yields `0`; no settled claim observes that value (selection bails out first
on `allPoints.length === 0`). -/
def getPanelEnds (features : List Feature) (b? : Option Bounds) (c : Canvas)
    (panelIndex : ℕ) : Option Ends :=
  match features.get? panelIndex with
  | Option.none => Option.none
  | Option.some panel =>
    let pts := (uniquePts panel.coords).map (fun q => toSvgCoords b? c q.1 q.2)
    let sorted := stableSort leLen (mkEdges pts)
    let short2 := stableSort leLex (sorted.take 2)
    let ctr : Point := ⟨(pts.map Point.x).sum / pts.length,
                        (pts.map Point.y).sum / pts.length⟩
    Option.some
      { left := match short2.get? 0 with
                | Option.some e => e.center
                | Option.none => ctr
        right := match short2.get? 1 with
                 | Option.some e => e.center
                 | Option.none => ctr
        center := ctr
        allPoints := pts }

/-- The rendering guard of the Panel component (App.jsx lines 104-106):
`if (!coords || coords.length < 2) return null`.  A rendered panel
contributes its projected vertex list (the `points` of its `<polygon>`). -/
def renderPanel (f : Feature) (b? : Option Bounds) (c : Canvas) : Option (List Point) :=
  if f.coords.length < 2 then Option.none
  else Option.some ((uniquePts f.coords).map (fun q => toSvgCoords b? c q.1 q.2))

/-- `isPointInBox` of App.jsx lines 594-596 (inclusive bounds check). -/
def isPointInBox (p : Point) (minX maxX minY maxY : ℚ) : Bool :=
  decide (minX ≤ p.x ∧ p.x ≤ maxX ∧ minY ≤ p.y ∧ p.y ≤ maxY)

/-- The orientation determinant of App.jsx line 601. -/
def orient (a b c : Point) : ℚ :=
  (b.y - a.y) * (c.x - b.x) - (b.x - a.x) * (c.y - b.y)

/-- `onSegment` of App.jsx lines 602-604 (bounding-box check with 1e-6 slack). -/
def onSegment (a b c : Point) : Bool :=
  decide (min a.x b.x - eps6 ≤ c.x ∧ c.x ≤ max a.x b.x + eps6 ∧
          min a.y b.y - eps6 ≤ c.y ∧ c.y ≤ max a.y b.y + eps6)

/-- `segmentsIntersect` of App.jsx lines 599-617: orientation-sign test with
colinear/touching handling within the 1e-6 epsilon. -/
def segmentsIntersect (p1 p2 q1 q2 : Point) : Bool :=
  let o1 := orient p1 p2 q1
  let o2 := orient p1 p2 q2
  let o3 := orient q1 q2 p1
  let o4 := orient q1 q2 p2
  if |o1| < eps6 ∧ onSegment p1 p2 q1 then true
  else if |o2| < eps6 ∧ onSegment p1 p2 q2 then true
  else if |o3| < eps6 ∧ onSegment q1 q2 p1 then true
  else if |o4| < eps6 ∧ onSegment q1 q2 p2 then true
  else decide (((0 < o1) ≠ (0 < o2)) ∧ ((0 < o3) ≠ (0 < o4)))

/-- `isPointInPolygon` of App.jsx lines 620-630: ray-casting parity loop with
the `1e-9` denominator guard; iteration `i` pairs vertex `i` with the
preceding vertex (`j = i - 1`, wrapping to `n - 1` for `i = 0`). -/
def isPointInPolygon (p : Point) (poly : List Point) : Bool :=
  (List.range poly.length).foldl (fun inside i =>
    let j := if i = 0 then poly.length - 1 else i - 1
    let vi := poly.getD i ⟨0, 0⟩
    let vj := poly.getD j ⟨0, 0⟩
    let hit := (decide (vi.y > p.y) != decide (vj.y > p.y)) &&
      decide (p.x < (vj.x - vi.x) * (p.y - vi.y) / (vj.y - vi.y + eps9) + vi.x)
    if hit then !inside else inside) false

/-- `isPanelInSelection` of App.jsx lines 633-672: three-tier test (any panel
vertex in the rectangle; any rectangle corner in the polygon; any panel edge
crossing any rectangle edge), bailing out early for a missing panel or an
empty vertex list. -/
def isPanelInSelection (features : List Feature) (b? : Option Bounds) (c : Canvas)
    (panelIndex : ℕ) (selStart selEnd : Point) : Bool :=
  match getPanelEnds features b? c panelIndex with
  | Option.none => false
  | Option.some ends =>
    if ends.allPoints.isEmpty then false
    else
      let minX := min selStart.x selEnd.x
      let maxX := max selStart.x selEnd.x
      let minY := min selStart.y selEnd.y
      let maxY := max selStart.y selEnd.y
      let c0 : Point := ⟨minX, minY⟩
      let c1 : Point := ⟨maxX, minY⟩
      let c2 : Point := ⟨maxX, maxY⟩
      let c3 : Point := ⟨minX, maxY⟩
      if ends.allPoints.any (fun p => isPointInBox p minX maxX minY maxY) then true
      else if [c0, c1, c2, c3].any (fun q => isPointInPolygon q ends.allPoints) then true
      else
        (List.range ends.allPoints.length).any (fun i =>
          let a := ends.allPoints.getD i ⟨0, 0⟩
          let b2 := ends.allPoints.getD ((i + 1) % ends.allPoints.length) ⟨0, 0⟩
          [(c0, c1), (c1, c2), (c2, c3), (c3, c0)].any
            (fun e => segmentsIntersect a b2 e.1 e.2))

/-- The `PANEL_STATES` enumeration of App.jsx lines 12-16: `null`, `mc4`
(blue, connector installed) and `terminated` (green, string terminated). -/
inductive PanelState where
  | NONE : PanelState
  | MC4_INSTALLED : PanelState
  | TERMINATED : PanelState
deriving DecidableEq, Repr

export PanelState (NONE MC4_INSTALLED TERMINATED)

/-- One panel's `{left, right}` record.  An absent JS field reads as
`undefined`, coalesced to `PANEL_STATES.NONE` by every access in the source. -/
structure EndPair where
  left : PanelState
  right : PanelState
deriving DecidableEq, Repr

/-- The all-`NONE` pair an untouched panel reads as. -/
def EndPair.dflt : EndPair := ⟨NONE, NONE⟩

/-- Which half of a panel a click resolved to (`side` in the source). -/
inductive Side where
  | left : Side
  | right : Side
deriving DecidableEq, Repr

/-- Read one side of a pair (`prev[index]?.[side] || PANEL_STATES.NONE`). -/
def sideGet (e : EndPair) : Side → PanelState
  | Side.left => e.left
  | Side.right => e.right

/-- Write one side of a pair (`{ ...prev[index], [side]: newState }`). -/
def sideSet (e : EndPair) : Side → PanelState → EndPair
  | Side.left, v => ⟨v, e.right⟩
  | Side.right, v => ⟨e.left, v⟩

/-- The `panelStates` JS object `{ panelIndex: { left, right } }` as an
association list with unique keys; `Object.values` is the entry list. -/
abbrev StateMap := List (ℕ × EndPair)

/-- Key lookup with the `undefined`-to-`NONE` coalescing of the source. -/
def getPanel (m : StateMap) (i : ℕ) : EndPair :=
  match m.find? (fun p => p.1 == i) with
  | Option.some p => p.2
  | Option.none => EndPair.dflt

/-- The spread update `{ ...prev, [index]: v }`: overwrite the value at the
key if it is present (a JS object holds each key once, so replacing the first
occurrence is exact), otherwise add the key. -/
def setPanel : StateMap → ℕ → EndPair → StateMap
  | [], i, v => [(i, v)]
  | p :: t, i, v => if p.1 == i then (i, v) :: t else p :: setPanel t i v

/-- The single-click cycle of `handlePanelClick` (App.jsx lines 751-753) and
of the `handleMouseUp` click branch (lines 935-937):
`NONE -> MC4_INSTALLED -> TERMINATED -> NONE`. -/
def cycleNext : PanelState → PanelState
  | NONE => MC4_INSTALLED
  | MC4_INSTALLED => TERMINATED
  | TERMINATED => NONE

/-- The box-selection step of `applySelection` (App.jsx lines 704-721):
`NONE -> MC4_INSTALLED -> TERMINATED`, and "Already TERMINATED, stay at
TERMINATED". -/
def satNext : PanelState → PanelState
  | NONE => MC4_INSTALLED
  | MC4_INSTALLED => TERMINATED
  | TERMINATED => TERMINATED

/-- One `{total, completed, remaining}` counter (JS numbers, here integers:
`remaining` is computed by subtraction and could in principle go negative). -/
structure Counter where
  total : ℤ
  completed : ℤ
  remaining : ℤ
deriving DecidableEq, Repr

/-- The pair of counters returned by the `useMemo` of App.jsx lines 503-521. -/
structure Counters where
  mc4 : Counter
  termination : Counter
deriving DecidableEq, Repr

/-- Contribution of one entry to `mc4Completed` (App.jsx lines 511-512): an
end counts when its state is `MC4_INSTALLED` or `TERMINATED`. -/
def endMc4 (e : EndPair) : ℤ :=
  (if e.left = MC4_INSTALLED ∨ e.left = TERMINATED then 1 else 0) +
  (if e.right = MC4_INSTALLED ∨ e.right = TERMINATED then 1 else 0)

/-- Contribution of one entry to `terminatedCompleted` (App.jsx lines
513-514): an end counts only when its state is exactly `TERMINATED`. -/
def endTerm (e : EndPair) : ℤ :=
  (if e.left = TERMINATED then 1 else 0) + (if e.right = TERMINATED then 1 else 0)

/-- The counter computation of App.jsx lines 503-521: totals are twice the
number of loaded features, completed counts accumulate over
`Object.values(panelStates)`, remaining is total minus completed. -/
def computeCounters (features : List Feature) (states : StateMap) : Counters :=
  let totalEnds : ℤ := (features.length : ℤ) * 2
  let mc4Completed := (states.map (fun p => endMc4 p.2)).sum
  let terminatedCompleted := (states.map (fun p => endTerm p.2)).sum
  { mc4 := ⟨totalEnds, mc4Completed, totalEnds - mc4Completed⟩
    termination := ⟨totalEnds, terminatedCompleted, totalEnds - terminatedCompleted⟩ }

/-- Modelled from the spec's words for the refinement check of claim C1:
"mc4.completed equals the number of ends (left or right) whose state is
Mc4Installed or Terminated", counted over all loaded panels with absent
panels read as `(None, None)`. -/
def specMc4Completed (features : List Feature) (states : StateMap) : ℤ :=
  ((List.range features.length).map (fun i => endMc4 (getPanel states i))).sum

/-- Modelled from the spec's words for the refinement check of claim C1:
"termination.completed equals the number of ends whose state is exactly
Terminated". -/
def specTermCompleted (features : List Feature) (states : StateMap) : ℤ :=
  ((List.range features.length).map (fun i => endTerm (getPanel states i))).sum

/-- The mutable state the history machinery ranges over: the current
`panelStates`, the `history` snapshot list and `historyIndex`. -/
structure AppState where
  panelStates : StateMap
  history : List StateMap
  historyIndex : ℕ
deriving DecidableEq

/-- Initial state (App.jsx lines 338-342): empty mapping, a one-element
history holding the empty snapshot, index 0. -/
def initState : AppState := ⟨[], [[]], 0⟩

/-- The push pattern repeated verbatim at every mutation site (App.jsx lines
761-767, 944-950 and 728-732): truncate the redo tail with
`slice(0, historyIndex + 1)`, append the new snapshot, set the index to the
new last element, and make the snapshot current. -/
def pushSnapshot (s : AppState) (snap : StateMap) : AppState :=
  let newHistory := s.history.take (s.historyIndex + 1) ++ [snap]
  ⟨snap, newHistory, newHistory.length - 1⟩

/-- `handlePanelClick` of App.jsx lines 740-773 (the same cycle is inlined in
the `handleMouseUp` click branch, lines 930-953, which omits the
`e.detail >= 2` double-click case): a double click forces `TERMINATED`, a
single click advances the clicked side one step of `cycleNext`, and the
result is pushed as one history snapshot.  `detail` is the MouseEvent
`e.detail` click count. -/
def clickStep (detail : ℕ) (i : ℕ) (sd : Side) (s : AppState) : AppState :=
  let cur := sideGet (getPanel s.panelStates i) sd
  let newState := if 2 ≤ detail then TERMINATED else cycleNext cur
  pushSnapshot s (setPanel s.panelStates i (sideSet (getPanel s.panelStates i) sd newState))

/-- The per-panel update of `applySelection` (App.jsx lines 694-724): reset
both ends on the unselect gesture, otherwise advance both ends with the
saturating step. -/
def selValue (old : EndPair) (unselect : Bool) : EndPair :=
  if unselect then ⟨NONE, NONE⟩ else ⟨satNext old.left, satNext old.right⟩

/-- `applySelection` of App.jsx lines 677-737: bail out below the minimum
drag size (both extents under 0.05), otherwise rewrite every geometrically
selected panel (reading each panel's previous state from `prev`), and push
one history snapshot only when at least one panel was selected. -/
def applySelection (features : List Feature) (b? : Option Bounds) (c : Canvas)
    (selStart selEnd : Point) (unselect : Bool) (s : AppState) : AppState :=
  if |selEnd.x - selStart.x| < 1/20 ∧ |selEnd.y - selStart.y| < 1/20 then s
  else
    let sel := fun i => isPanelInSelection features b? c i selStart selEnd
    let newStates := (List.range features.length).foldl
      (fun m i => if sel i then setPanel m i (selValue (getPanel s.panelStates i) unselect) else m)
      s.panelStates
    if (List.range features.length).any (fun i => sel i) then
      pushSnapshot s newStates
    else
      { s with panelStates := newStates }

/-- `undo` of App.jsx lines 984-989: no-op at index 0, otherwise step the
index back and restore that snapshot. -/
def undoStep (s : AppState) : AppState :=
  if 0 < s.historyIndex then
    { s with historyIndex := s.historyIndex - 1,
             panelStates := s.history.getD (s.historyIndex - 1) [] }
  else s

/-- `redo` of App.jsx lines 992-997: no-op at the last index, otherwise step
the index forward and restore that snapshot. -/
def redoStep (s : AppState) : AppState :=
  if s.historyIndex < s.history.length - 1 then
    { s with historyIndex := s.historyIndex + 1,
             panelStates := s.history.getD (s.historyIndex + 1) [] }
  else s

/-- States reachable from the initial state by the state mutations the UI can
fire.  A direct panel click always carries the index of a rendered panel
(`data-panel-index` is only emitted by the Panel component after its
`coords.length < 2` guard), hence the side conditions on `click`. -/
inductive Reachable (features : List Feature) (b? : Option Bounds) (c : Canvas) :
    AppState → Prop where
  | init : Reachable features b? c initState
  | click {s} (detail i : ℕ) (sd : Side) :
      Reachable features b? c s →
      i < features.length →
      2 ≤ (features.getD i ⟨[]⟩).coords.length →
      Reachable features b? c (clickStep detail i sd s)
  | box {s} (selStart selEnd : Point) (unselect : Bool) :
      Reachable features b? c s →
      Reachable features b? c (applySelection features b? c selStart selEnd unselect s)
  | undo {s} : Reachable features b? c s → Reachable features b? c (undoStep s)
  | redo {s} : Reachable features b? c s → Reachable features b? c (redoStep s)

/-- Well-formedness of one history snapshot: unique keys, every key a loaded
panel index, and every keyed panel renderable (at least two vertices). -/
def SnapOK (features : List Feature) (m : StateMap) : Prop :=
  (m.map Prod.fst).Nodup ∧
  ∀ p ∈ m, p.1 < features.length ∧ 2 ≤ (features.getD p.1 ⟨[]⟩).coords.length

/-- The master invariant: a nonempty history, an in-range index, the current
mapping equal to the indexed snapshot, and every snapshot well-formed. -/
def Inv (features : List Feature) (s : AppState) : Prop :=
  0 < s.history.length ∧
  s.historyIndex < s.history.length ∧
  s.history.getD s.historyIndex [] = s.panelStates ∧
  ∀ m ∈ s.history, SnapOK features m

/-- A map annotation note (App.jsx lines 875-880): id from `Date.now()`,
canvas coordinates, text. -/
structure Note where
  id : ℕ
  svgX : ℚ
  svgY : ℚ
  text : String
deriving DecidableEq, Repr

/-- Squared distance from a note to a click point; the source compares
`Math.hypot(...) < clickRadius` with `clickRadius = 5`, equivalent to the
squared distance being below 25. -/
def noteDistSq (n : Note) (p : Point) : ℚ :=
  (n.svgX - p.x) * (n.svgX - p.x) + (n.svgY - p.y) * (n.svgY - p.y)

/-- The note-mode plain-click branch of `handleMouseUp` (App.jsx lines
861-888): if some existing note lies strictly within 5 pixels of the click,
open that note's editor (`setEditingNote`) and leave the list alone;
otherwise append a fresh empty note at the exact click position.  `now`
stands for `Date.now()`.  Returns the new note list and the note whose
editor was opened, if any. -/
def noteClickUp (notes : List Note) (p : Point) (now : ℕ) :
    List Note × Option Note :=
  match notes.find? (fun n => noteDistSq n p < 25) with
  | Option.some n => (notes, Option.some n)
  | Option.none => (notes ++ [⟨now, p.x, p.y, ""⟩], Option.none)

lemma setPanel_nil (i : ℕ) (v : EndPair) : setPanel [] i v = [(i, v)] := rfl

lemma setPanel_cons_eq (a : ℕ × EndPair) (t : StateMap) (i : ℕ) (v : EndPair)
    (h : a.1 = i) : setPanel (a :: t) i v = (i, v) :: t := by
  simp [setPanel, h]

lemma setPanel_cons_ne (a : ℕ × EndPair) (t : StateMap) (i : ℕ) (v : EndPair)
    (h : ¬ a.1 = i) : setPanel (a :: t) i v = a :: setPanel t i v := by
  simp [setPanel, h]

lemma getPanel_nil (i : ℕ) : getPanel [] i = EndPair.dflt := rfl

lemma getPanel_cons (a : ℕ × EndPair) (t : StateMap) (i : ℕ) :
    getPanel (a :: t) i = if a.1 = i then a.2 else getPanel t i := by
  by_cases h : a.1 = i
  · unfold getPanel
    rw [List.find?_cons_of_pos _ (by simpa using h), if_pos h]
  · unfold getPanel
    rw [List.find?_cons_of_neg _ (by simpa using h), if_neg h]

lemma getPanel_setPanel_self (m : StateMap) (i : ℕ) (v : EndPair) :
    getPanel (setPanel m i v) i = v := by
  induction m with
  | nil => rw [setPanel_nil, getPanel_cons, if_pos rfl]
  | cons a t ih =>
    by_cases h : a.1 = i
    · rw [setPanel_cons_eq a t i v h, getPanel_cons, if_pos rfl]
    · rw [setPanel_cons_ne a t i v h, getPanel_cons, if_neg h, ih]

lemma getPanel_setPanel_ne (m : StateMap) (i j : ℕ) (v : EndPair) (hj : j ≠ i) :
    getPanel (setPanel m i v) j = getPanel m j := by
  induction m with
  | nil =>
    rw [setPanel_nil, getPanel_cons, if_neg (by simpa using Ne.symm hj), getPanel_nil]
  | cons a t ih =>
    by_cases h : a.1 = i
    · have hja : ¬ (a.1 = j) := by omega
      rw [setPanel_cons_eq a t i v h, getPanel_cons,
        if_neg (by simpa using Ne.symm hj), getPanel_cons, if_neg hja]
    · rw [setPanel_cons_ne a t i v h, getPanel_cons, getPanel_cons, ih]

lemma keys_setPanel_sub (m : StateMap) (i : ℕ) (v : EndPair) (k : ℕ)
    (hk : k ∈ (setPanel m i v).map Prod.fst) : k = i ∨ k ∈ m.map Prod.fst := by
  induction m with
  | nil =>
    rw [setPanel_nil] at hk
    exact Or.inl (by simpa using hk)
  | cons a t ih =>
    by_cases h : a.1 = i
    · rw [setPanel_cons_eq a t i v h, List.map_cons, List.mem_cons] at hk
      rcases hk with hk | hk
      · exact Or.inl hk
      · exact Or.inr (by rw [List.map_cons, List.mem_cons]; exact Or.inr hk)
    · rw [setPanel_cons_ne a t i v h, List.map_cons, List.mem_cons] at hk
      rcases hk with hk | hk
      · exact Or.inr (by rw [List.map_cons, List.mem_cons]; exact Or.inl hk)
      · rcases ih hk with hk2 | hk2
        · exact Or.inl hk2
        · exact Or.inr (by rw [List.map_cons, List.mem_cons]; exact Or.inr hk2)

lemma keys_nodup_setPanel (m : StateMap) (i : ℕ) (v : EndPair)
    (h : (m.map Prod.fst).Nodup) : ((setPanel m i v).map Prod.fst).Nodup := by
  induction m with
  | nil => simp [setPanel_nil]
  | cons a t ih =>
    rw [List.map_cons, List.nodup_cons] at h
    by_cases ha : a.1 = i
    · rw [setPanel_cons_eq a t i v ha, List.map_cons, List.nodup_cons]
      exact ⟨ha ▸ h.1, h.2⟩
    · rw [setPanel_cons_ne a t i v ha, List.map_cons, List.nodup_cons]
      refine ⟨fun hmem => ?_, ih h.2⟩
      rcases keys_setPanel_sub t i v a.1 hmem with h2 | h2
      · exact ha h2
      · exact h.1 h2

lemma mem_setPanel (m : StateMap) (i : ℕ) (v : EndPair) (p : ℕ × EndPair)
    (hp : p ∈ setPanel m i v) : p = (i, v) ∨ p ∈ m := by
  induction m with
  | nil =>
    rw [setPanel_nil] at hp
    exact Or.inl (by simpa using hp)
  | cons a t ih =>
    by_cases h : a.1 = i
    · rw [setPanel_cons_eq a t i v h, List.mem_cons] at hp
      rcases hp with hp | hp
      · exact Or.inl hp
      · exact Or.inr (List.mem_cons_of_mem a hp)
    · rw [setPanel_cons_ne a t i v h, List.mem_cons] at hp
      rcases hp with hp | hp
      · exact Or.inr (hp ▸ List.mem_cons_self a t)
      · rcases ih hp with hp2 | hp2
        · exact Or.inl hp2
        · exact Or.inr (List.mem_cons_of_mem a hp2)

lemma sideGet_sideSet_self (e : EndPair) (sd : Side) (v : PanelState) :
    sideGet (sideSet e sd v) sd = v := by
  cases sd <;> rfl

lemma sideGet_sideSet_ne (e : EndPair) (sd sd2 : Side) (v : PanelState) (h : sd2 ≠ sd) :
    sideGet (sideSet e sd v) sd2 = sideGet e sd2 := by
  cases sd <;> cases sd2 <;> first | rfl | exact absurd rfl h

lemma clickStep_panelStates (d i : ℕ) (sd : Side) (s : AppState) :
    (clickStep d i sd s).panelStates =
      setPanel s.panelStates i
        (sideSet (getPanel s.panelStates i) sd
          (if 2 ≤ d then TERMINATED else cycleNext (sideGet (getPanel s.panelStates i) sd))) := rfl

lemma insertSorted_perm (le : Edge → Edge → Bool) (e : Edge) (l : List Edge) :
    (insertSorted le e l).Perm (e :: l) := by
  induction l with
  | nil => exact List.Perm.refl _
  | cons f fs ih =>
    rw [insertSorted]
    by_cases h : le e f
    · rw [if_pos h]
    · rw [if_neg h]
      exact (List.Perm.cons f ih).trans (List.Perm.swap e f fs)

lemma stableSort_perm (le : Edge → Edge → Bool) (l : List Edge) :
    (stableSort le l).Perm l := by
  induction l with
  | nil => exact List.Perm.refl _
  | cons e es ih =>
    exact (insertSorted_perm le e (stableSort le es)).trans (List.Perm.cons e ih)

lemma stableSort_length (le : Edge → Edge → Bool) (l : List Edge) :
    (stableSort le l).length = l.length :=
  (stableSort_perm le l).length_eq

lemma stableSort_mem (le : Edge → Edge → Bool) (l : List Edge) (e : Edge)
    (h : e ∈ stableSort le l) : e ∈ l :=
  (stableSort_perm le l).mem_iff.mp h

lemma stableSort_pair (le : Edge → Edge → Bool) (a b : Edge) :
    stableSort le [a, b] = if le a b then [a, b] else [b, a] := by
  rw [stableSort, stableSort, stableSort, insertSorted, insertSorted]
  by_cases h : le a b
  · rw [if_pos h, if_pos h]
  · rw [if_neg h, if_neg h, insertSorted]

lemma getPanel_foldl_sel (sel : ℕ → Bool) (f : ℕ → EndPair) (l : List ℕ)
    (hl : l.Nodup) (m : StateMap) (j : ℕ) :
    getPanel (l.foldl (fun acc i => if sel i then setPanel acc i (f i) else acc) m) j =
      if j ∈ l ∧ sel j then f j else getPanel m j := by
  induction l generalizing m with
  | nil => simp
  | cons k t ih =>
    rw [List.nodup_cons] at hl
    rw [List.foldl_cons, ih hl.2]
    by_cases hjk : j = k
    · subst hjk
      have hjt : ¬ (j ∈ t ∧ sel j = true) := fun hc => hl.1 hc.1
      by_cases hs : sel j = true
      · rw [if_neg hjt, if_pos hs, getPanel_setPanel_self,
          if_pos (show j ∈ j :: t ∧ sel j = true from ⟨List.mem_cons_self j t, hs⟩)]
      · rw [if_neg hjt,
          if_neg (show ¬ (j ∈ j :: t ∧ sel j = true) from fun hc => hs hc.2),
          if_neg hs]
    · have hmem : (j ∈ k :: t ∧ sel j = true) ↔ (j ∈ t ∧ sel j = true) := by
        constructor
        · rintro ⟨h1, h2⟩
          rcases List.mem_cons.mp h1 with h3 | h3
          · exact absurd h3 hjk
          · exact ⟨h3, h2⟩
        · rintro ⟨h1, h2⟩
          exact ⟨List.mem_cons_of_mem k h1, h2⟩
      by_cases hjsel : j ∈ t ∧ sel j = true
      · rw [if_pos hjsel, if_pos (hmem.mpr hjsel)]
      · rw [if_neg hjsel, if_neg (fun hc => hjsel (hmem.mp hc))]
        by_cases hs : sel k = true
        · rw [if_pos hs, getPanel_setPanel_ne m k j (f k) hjk]
        · rw [if_neg hs]

lemma foldl_sel_id (sel : ℕ → Bool) (f : ℕ → EndPair) (l : List ℕ) (m : StateMap)
    (h : ∀ i ∈ l, sel i = false) :
    l.foldl (fun acc i => if sel i then setPanel acc i (f i) else acc) m = m := by
  induction l with
  | nil => rfl
  | cons k t ih =>
    rw [List.foldl_cons, if_neg (by simp [h k (List.mem_cons_self k t)]),
      ih (fun i hi => h i (List.mem_cons_of_mem k hi))]

lemma mem_foldl_sel (sel : ℕ → Bool) (f : ℕ → EndPair) (l : List ℕ) (m : StateMap)
    (p : ℕ × EndPair)
    (hp : p ∈ l.foldl (fun acc i => if sel i then setPanel acc i (f i) else acc) m) :
    p ∈ m ∨ ∃ i ∈ l, sel i = true ∧ p = (i, f i) := by
  induction l generalizing m with
  | nil => exact Or.inl hp
  | cons k t ih =>
    rw [List.foldl_cons] at hp
    rcases ih _ hp with h2 | h2
    · by_cases hs : sel k
      · rw [if_pos hs] at h2
        rcases mem_setPanel m k (f k) p h2 with h3 | h3
        · exact Or.inr ⟨k, List.mem_cons_self k t, hs, h3⟩
        · exact Or.inl h3
      · rw [if_neg hs] at h2
        exact Or.inl h2
    · rcases h2 with ⟨i, hi, hsi, hpi⟩
      exact Or.inr ⟨i, List.mem_cons_of_mem k hi, hsi, hpi⟩

lemma keys_nodup_foldl_sel (sel : ℕ → Bool) (f : ℕ → EndPair) (l : List ℕ)
    (m : StateMap) (h : (m.map Prod.fst).Nodup) :
    ((l.foldl (fun acc i => if sel i then setPanel acc i (f i) else acc) m).map
      Prod.fst).Nodup := by
  induction l generalizing m with
  | nil => exact h
  | cons k t ih =>
    rw [List.foldl_cons]
    by_cases hs : sel k
    · rw [if_pos hs]
      exact ih _ (keys_nodup_setPanel m k (f k) h)
    · rw [if_neg hs]
      exact ih _ h

lemma uniquePts_nil_of_short (coords : List (ℚ × ℚ)) (h : coords.length < 2) :
    uniquePts coords = [] := by
  cases coords with
  | nil => rfl
  | cons c rest =>
    cases rest with
    | nil => norm_num [uniquePts, eps9]
    | cons d t => exact absurd h (by simp)

lemma isPanelInSelection_none (features : List Feature) (b? : Option Bounds)
    (c : Canvas) (i : ℕ) (ss se : Point) (hg : features.get? i = Option.none) :
    isPanelInSelection features b? c i ss se = false := by
  unfold isPanelInSelection getPanelEnds
  rw [hg]

lemma isPanelInSelection_false_of_nil (features : List Feature) (b? : Option Bounds)
    (c : Canvas) (i : ℕ) (ss se : Point) (panel : Feature)
    (hg : features.get? i = Option.some panel)
    (hnil : uniquePts panel.coords = []) :
    isPanelInSelection features b? c i ss se = false := by
  unfold isPanelInSelection getPanelEnds
  rw [hg]
  simp only [hnil, List.map_nil, List.isEmpty_nil, if_true]

lemma getD_of_get?_some (features : List Feature) (i : ℕ) (panel : Feature)
    (hg : features.get? i = Option.some panel) : features.getD i ⟨[]⟩ = panel := by
  unfold List.getD
  rw [hg]
  rfl

lemma selected_imp_renderable (features : List Feature) (b? : Option Bounds)
    (c : Canvas) (i : ℕ) (ss se : Point)
    (h : isPanelInSelection features b? c i ss se = true) :
    i < features.length ∧ 2 ≤ (features.getD i ⟨[]⟩).coords.length := by
  rcases hg : features.get? i with _ | panel
  · rw [isPanelInSelection_none features b? c i ss se hg] at h
    exact absurd h (by simp)
  · have hlen : i < features.length := by
      by_contra hc
      rw [List.get?_eq_none.mpr (by omega)] at hg
      exact Option.noConfusion hg
    refine ⟨hlen, ?_⟩
    rw [getD_of_get?_some features i panel hg]
    by_contra hshort
    rw [isPanelInSelection_false_of_nil features b? c i ss se panel hg
      (uniquePts_nil_of_short panel.coords (by omega))] at h
    exact Bool.noConfusion h

lemma getD_mem (l : List StateMap) (i : ℕ) (h : i < l.length) : l.getD i [] ∈ l := by
  unfold List.getD
  rcases hg : l.get? i with _ | x
  · rw [List.get?_eq_none] at hg
    omega
  · exact List.get?_mem hg

lemma getD_append_length (l1 l2 : List StateMap) :
    (l1 ++ l2).getD l1.length [] = l2.getD 0 [] := by
  unfold List.getD
  rw [List.get?_append_right (le_refl _), Nat.sub_self]

lemma getD_append_of_length (l1 l2 : List StateMap) (n : ℕ) (h : l1.length = n) :
    (l1 ++ l2).getD n [] = l2.getD 0 [] := by
  subst h
  exact getD_append_length l1 l2

lemma snapOK_current (features : List Feature) (s : AppState) (h : Inv features s) :
    SnapOK features s.panelStates := by
  obtain ⟨hlen, hidx, hcur, hall⟩ := h
  exact hcur ▸ hall _ (getD_mem s.history s.historyIndex hidx)

lemma snapOK_setPanel (features : List Feature) (m : StateMap) (i : ℕ) (v : EndPair)
    (h : SnapOK features m) (hi : i < features.length)
    (hr : 2 ≤ (features.getD i ⟨[]⟩).coords.length) :
    SnapOK features (setPanel m i v) := by
  refine ⟨keys_nodup_setPanel m i v h.1, fun p hp => ?_⟩
  rcases mem_setPanel m i v p hp with h2 | h2
  · rw [h2]
    exact ⟨hi, hr⟩
  · exact h.2 p h2

lemma inv_init (features : List Feature) : Inv features initState := by
  refine ⟨by simp [initState], by simp [initState], rfl, fun m hm => ?_⟩
  rcases List.mem_singleton.mp hm with rfl
  exact ⟨List.nodup_nil, fun p hp => absurd hp (List.not_mem_nil p)⟩

lemma inv_push (features : List Feature) (s : AppState) (m : StateMap)
    (h : Inv features s) (hm : SnapOK features m) : Inv features (pushSnapshot s m) := by
  obtain ⟨hlen, hidx, hcur, hall⟩ := h
  have htake : (s.history.take (s.historyIndex + 1)).length = s.historyIndex + 1 := by
    rw [List.length_take]
    omega
  have hh : (pushSnapshot s m).history = s.history.take (s.historyIndex + 1) ++ [m] := rfl
  have hlen2 : (pushSnapshot s m).history.length = s.historyIndex + 2 := by
    rw [hh, List.length_append, htake]
    rfl
  have hidx2 : (pushSnapshot s m).historyIndex = s.historyIndex + 1 := by
    show (s.history.take (s.historyIndex + 1) ++ [m]).length - 1 = s.historyIndex + 1
    rw [List.length_append, htake]
    rfl
  refine ⟨by omega, by omega, ?_, fun m2 hm2 => ?_⟩
  · rw [hh, hidx2, getD_append_of_length _ _ _ htake]
    rfl
  · rw [hh] at hm2
    rcases List.mem_append.mp hm2 with h2 | h2
    · exact hall m2 (List.take_subset _ _ h2)
    · rcases List.mem_singleton.mp h2 with rfl
      exact hm

lemma inv_click (features : List Feature) (s : AppState) (d i : ℕ) (sd : Side)
    (h : Inv features s) (hi : i < features.length)
    (hr : 2 ≤ (features.getD i ⟨[]⟩).coords.length) :
    Inv features (clickStep d i sd s) := by
  apply inv_push features s _ h
  exact snapOK_setPanel features s.panelStates i _ (snapOK_current features s h) hi hr

lemma inv_applySelection (features : List Feature) (b? : Option Bounds) (c : Canvas)
    (ss se : Point) (unselect : Bool) (s : AppState) (h : Inv features s) :
    Inv features (applySelection features b? c ss se unselect s) := by
  unfold applySelection
  split
  · exact h
  · have hsnap : SnapOK features
        ((List.range features.length).foldl
          (fun m i => if isPanelInSelection features b? c i ss se then
            setPanel m i (selValue (getPanel s.panelStates i) unselect) else m)
          s.panelStates) := by
      refine ⟨keys_nodup_foldl_sel _ _ _ _ (snapOK_current features s h).1,
        fun p hp => ?_⟩
      rcases mem_foldl_sel _ _ _ _ p hp with h2 | h2
      · exact (snapOK_current features s h).2 p h2
      · rcases h2 with ⟨j, _, hsel, rfl⟩
        exact (selected_imp_renderable features b? c j ss se hsel).imp id id
    dsimp only
    split
    · exact inv_push features s _ h hsnap
    · rename_i hany
      have hall : ∀ j ∈ List.range features.length,
          isPanelInSelection features b? c j ss se = false := by
        intro j hj
        by_contra hc
        exact hany (List.any_eq_true.mpr ⟨j, hj,
          by simpa using Bool.eq_true_of_ne_false (by simpa using hc)⟩)
      rw [foldl_sel_id _ _ _ _ hall]
      exact h

lemma inv_undo (features : List Feature) (s : AppState) (h : Inv features s) :
    Inv features (undoStep s) := by
  obtain ⟨hlen, hidx, hcur, hall⟩ := h
  unfold undoStep
  split
  · exact ⟨hlen, by dsimp only; omega, rfl, hall⟩
  · exact ⟨hlen, hidx, hcur, hall⟩

lemma inv_redo (features : List Feature) (s : AppState) (h : Inv features s) :
    Inv features (redoStep s) := by
  obtain ⟨hlen, hidx, hcur, hall⟩ := h
  unfold redoStep
  split
  · rename_i hlt
    exact ⟨hlen, by dsimp only; omega, rfl, hall⟩
  · exact ⟨hlen, hidx, hcur, hall⟩

lemma reachable_inv (features : List Feature) (b? : Option Bounds) (c : Canvas)
    (s : AppState) (h : Reachable features b? c s) : Inv features s := by
  induction h with
  | init => exact inv_init features
  | click d i sd _ hi hr ih => exact inv_click features _ d i sd ih hi hr
  | box ss se unselect _ ih => exact inv_applySelection features b? c ss se unselect _ ih
  | undo _ ih => exact inv_undo features _ ih
  | redo _ ih => exact inv_redo features _ ih

lemma getPanel_eq_dflt_of_not_mem (m : StateMap) (k : ℕ)
    (h : k ∉ m.map Prod.fst) : getPanel m k = EndPair.dflt := by
  unfold getPanel
  rw [List.find?_eq_none.mpr]
  intro p hp
  simp only [beq_iff_eq]
  exact fun he => h (List.mem_map.mpr ⟨p, hp, he⟩)

lemma entries_sum_eq (g : EndPair → ℤ) (hg : g EndPair.dflt = 0) (n : ℕ)
    (m : StateMap) (h1 : (m.map Prod.fst).Nodup) (h2 : ∀ p ∈ m, p.1 < n) :
    (m.map (fun p => g p.2)).sum = ∑ i in Finset.range n, g (getPanel m i) := by
  induction m with
  | nil => simp [getPanel_nil, hg]
  | cons a t ih =>
    rw [List.map_cons, List.nodup_cons] at h1
    rw [List.map_cons, List.sum_cons,
      ih h1.2 (fun p hp => h2 p (List.mem_cons_of_mem a hp))]
    have hupd : (fun i => g (getPanel (a :: t) i)) =
        Function.update (fun i => g (getPanel t i)) a.1 (g a.2) := by
      funext i
      rw [getPanel_cons]
      by_cases hai : a.1 = i
      · subst hai
        rw [if_pos rfl, Function.update_same]
      · rw [if_neg hai, Function.update_noteq (Ne.symm hai)]
    rw [hupd, Finset.sum_update_of_mem
      (Finset.mem_range.mpr (h2 a (List.mem_cons_self a t))),
      Finset.sdiff_singleton_eq_erase,
      Finset.sum_erase _ (by
        rw [getPanel_eq_dflt_of_not_mem t a.1 h1.1, hg])]

lemma undo_iter (features : List Feature) (s : AppState) (h : Inv features s)
    (k : ℕ) (hk : k ≤ s.historyIndex) :
    undoStep^[k] s =
      ⟨s.history.getD (s.historyIndex - k) [], s.history, s.historyIndex - k⟩ := by
  induction k with
  | zero =>
    obtain ⟨_, _, hcur, _⟩ := h
    rw [Function.iterate_zero, id_eq, Nat.sub_zero]
    cases s with
    | mk ps hist idx =>
      dsimp only at hcur ⊢
      rw [hcur]
  | succ k ih =>
    rw [Function.iterate_succ_apply', ih (by omega)]
    unfold undoStep
    rw [if_pos (by dsimp only; omega)]
    dsimp only
    rw [show s.historyIndex - k - 1 = s.historyIndex - (k + 1) from by omega]

lemma redo_iter (hist : List StateMap) (j k : ℕ) (h : j + k + 1 ≤ hist.length) :
    redoStep^[k] ⟨hist.getD j [], hist, j⟩ = ⟨hist.getD (j + k) [], hist, j + k⟩ := by
  induction k generalizing j with
  | zero => rw [Function.iterate_zero, id_eq, Nat.add_zero]
  | succ k ih =>
    rw [Function.iterate_succ_apply]
    have hstep : redoStep ⟨hist.getD j [], hist, j⟩ =
        ⟨hist.getD (j + 1) [], hist, j + 1⟩ := by
      unfold redoStep
      rw [if_pos (by dsimp only; omega)]
    rw [hstep, ih (j + 1) (by omega),
      show j + 1 + k = j + (k + 1) from by omega]

lemma redo_after_push (s : AppState) (m : StateMap) :
    redoStep (pushSnapshot s m) = pushSnapshot s m := by
  unfold redoStep pushSnapshot
  dsimp only
  rw [if_neg (lt_irrefl _)]

lemma push_history_length (s : AppState) (m : StateMap)
    (h : s.historyIndex < s.history.length) :
    (pushSnapshot s m).history.length = s.historyIndex + 2 := by
  unfold pushSnapshot
  dsimp only
  rw [List.length_append, List.length_take]
  simp only [List.length_cons, List.length_nil]
  omega

/-- C1: for every panel-state mapping reachable by any sequence of state
mutations, `mc4.completed` equals the number of ends whose state is
`MC4_INSTALLED` or `TERMINATED`, `termination.completed` equals the number of
ends whose state is exactly `TERMINATED`, and for both categories
`completed + remaining = total = 2 * panelCount` where `panelCount` is the
number of loaded panel features. -/
theorem mc4_counters_invariant (features : List Feature) (b? : Option Bounds)
    (c : Canvas) (s : AppState) (h : Reachable features b? c s) :
    (computeCounters features s.panelStates).mc4.completed =
      specMc4Completed features s.panelStates ∧
    (computeCounters features s.panelStates).termination.completed =
      specTermCompleted features s.panelStates ∧
    (computeCounters features s.panelStates).mc4.completed +
      (computeCounters features s.panelStates).mc4.remaining =
      (computeCounters features s.panelStates).mc4.total ∧
    (computeCounters features s.panelStates).termination.completed +
      (computeCounters features s.panelStates).termination.remaining =
      (computeCounters features s.panelStates).termination.total ∧
    (computeCounters features s.panelStates).mc4.total = 2 * (features.length : ℤ) ∧
    (computeCounters features s.panelStates).termination.total =
      2 * (features.length : ℤ) := by
  have hOK := snapOK_current features s (reachable_inv features b? c s h)
  refine ⟨?_, ?_, ?_, ?_, ?_, ?_⟩
  · exact entries_sum_eq endMc4 (by decide) features.length s.panelStates hOK.1
      (fun p hp => (hOK.2 p hp).1)
  · exact entries_sum_eq endTerm (by decide) features.length s.panelStates hOK.1
      (fun p hp => (hOK.2 p hp).1)
  · dsimp only [computeCounters]
    ring
  · dsimp only [computeCounters]
    ring
  · dsimp only [computeCounters]
    ring
  · dsimp only [computeCounters]
    ring

/-- Witness for C1: the concrete state after one single click on the left end
of the one loaded panel is reachable, and the counters agree with the spec
counts there. -/
theorem mc4_counters_invariant_witness :
    Reachable [⟨[(0,1),(1,1),(1,0),(0,0)]⟩] (Option.some ⟨0,1,0,1⟩) ⟨1,1⟩
      (clickStep 1 0 Side.left initState) ∧
    (computeCounters [⟨[(0,1),(1,1),(1,0),(0,0)]⟩]
      (clickStep 1 0 Side.left initState).panelStates).mc4.completed =
      specMc4Completed [⟨[(0,1),(1,1),(1,0),(0,0)]⟩]
        (clickStep 1 0 Side.left initState).panelStates := by
  have hreach : Reachable [⟨[(0,1),(1,1),(1,0),(0,0)]⟩] (Option.some ⟨0,1,0,1⟩) ⟨1,1⟩
      (clickStep 1 0 Side.left initState) :=
    Reachable.click 1 0 Side.left Reachable.init (by decide) (by decide)
  exact ⟨hreach,
    (mc4_counters_invariant [⟨[(0,1),(1,1),(1,0),(0,0)]⟩] (Option.some ⟨0,1,0,1⟩) ⟨1,1⟩
      (clickStep 1 0 Side.left initState) hreach).1⟩

/-- C2: a single click (`e.detail < 2`) advances the clicked end exactly one
step of the strict cycle `NONE -> MC4_INSTALLED -> TERMINATED -> NONE` (so
three single clicks return a fresh end to `NONE`), a double click
(`e.detail >= 2`) sets the end directly to `TERMINATED` whatever its current
state, and no other end or panel changes state. -/
theorem handlePanelClick_transition (s : AppState) (d i : ℕ) (sd : Side) :
    (2 ≤ d → sideGet (getPanel (clickStep d i sd s).panelStates i) sd = TERMINATED) ∧
    (d < 2 → sideGet (getPanel (clickStep d i sd s).panelStates i) sd =
      cycleNext (sideGet (getPanel s.panelStates i) sd)) ∧
    (∀ sd2, sd2 ≠ sd → sideGet (getPanel (clickStep d i sd s).panelStates i) sd2 =
      sideGet (getPanel s.panelStates i) sd2) ∧
    (∀ j, j ≠ i → getPanel (clickStep d i sd s).panelStates j =
      getPanel s.panelStates j) ∧
    (sideGet (getPanel s.panelStates i) sd = NONE →
      sideGet (getPanel
        (clickStep 1 i sd (clickStep 1 i sd (clickStep 1 i sd s))).panelStates i)
        sd = NONE) := by
  have hget : ∀ (d2 : ℕ) (s2 : AppState),
      getPanel (clickStep d2 i sd s2).panelStates i =
        sideSet (getPanel s2.panelStates i) sd
          (if 2 ≤ d2 then TERMINATED
           else cycleNext (sideGet (getPanel s2.panelStates i) sd)) := by
    intro d2 s2
    rw [clickStep_panelStates, getPanel_setPanel_self]
  have hone : ∀ s2 : AppState,
      sideGet (getPanel (clickStep 1 i sd s2).panelStates i) sd =
        cycleNext (sideGet (getPanel s2.panelStates i) sd) := by
    intro s2
    rw [hget, sideGet_sideSet_self, if_neg (by omega)]
  refine ⟨?_, ?_, ?_, ?_, ?_⟩
  · intro hd
    rw [hget, sideGet_sideSet_self, if_pos hd]
  · intro hd
    rw [hget, sideGet_sideSet_self, if_neg (by omega)]
  · intro sd2 hne
    rw [hget, sideGet_sideSet_ne _ _ _ _ hne]
  · intro j hj
    rw [clickStep_panelStates, getPanel_setPanel_ne _ _ _ _ hj]
  · intro h0
    rw [hone, hone, hone, h0]
    rfl

/-- Witness for C2: both implications at concrete inputs -- a double click on
a fresh left end lands on `TERMINATED`, and a single click from `NONE`
lands on `MC4_INSTALLED`. -/
theorem handlePanelClick_transition_witness :
    (2 ≤ 2 ∧
      sideGet (getPanel (clickStep 2 0 Side.left initState).panelStates 0)
        Side.left = TERMINATED) ∧
    ((1 : ℕ) < 2 ∧
      sideGet (getPanel (clickStep 1 0 Side.left initState).panelStates 0)
        Side.left = cycleNext (sideGet (getPanel initState.panelStates 0) Side.left)) := by
  exact ⟨⟨le_refl 2, (handlePanelClick_transition initState 2 0 Side.left).1 (le_refl 2)⟩,
    ⟨by omega, (handlePanelClick_transition initState 1 0 Side.left).2.1 (by omega)⟩⟩

/-- C4: the history manager contract -- `push` truncates the redo tail,
appends and moves the index to the new last element; `undo` is a no-op at
index 0 and otherwise decrements the index and restores that snapshot;
`redo` is a no-op at the last index and otherwise increments and restores;
the initial history is a single empty snapshot at index 0; and the index of
every reachable state stays within `[0, length - 1]`. -/
theorem history_manager_contract (features : List Feature) (b? : Option Bounds)
    (c : Canvas) :
    (∀ s m, (pushSnapshot s m).history = s.history.take (s.historyIndex + 1) ++ [m] ∧
      (pushSnapshot s m).historyIndex = (pushSnapshot s m).history.length - 1 ∧
      (pushSnapshot s m).panelStates = m) ∧
    (∀ s : AppState, s.historyIndex = 0 → undoStep s = s) ∧
    (∀ s : AppState, 0 < s.historyIndex →
      (undoStep s).historyIndex = s.historyIndex - 1 ∧
      (undoStep s).panelStates = s.history.getD (s.historyIndex - 1) [] ∧
      (undoStep s).history = s.history) ∧
    (∀ s : AppState, s.history.length - 1 ≤ s.historyIndex → redoStep s = s) ∧
    (∀ s : AppState, s.historyIndex < s.history.length - 1 →
      (redoStep s).historyIndex = s.historyIndex + 1 ∧
      (redoStep s).panelStates = s.history.getD (s.historyIndex + 1) [] ∧
      (redoStep s).history = s.history) ∧
    initState = ⟨[], [[]], 0⟩ ∧
    (∀ s, Reachable features b? c s →
      1 ≤ s.history.length ∧ s.historyIndex ≤ s.history.length - 1) := by
  refine ⟨fun s m => ⟨rfl, rfl, rfl⟩, ?_, ?_, ?_, ?_, rfl, ?_⟩
  · intro s h0
    unfold undoStep
    rw [if_neg (by omega)]
  · intro s h0
    unfold undoStep
    rw [if_pos h0]
    exact ⟨rfl, rfl, rfl⟩
  · intro s hlast
    unfold redoStep
    rw [if_neg (by omega)]
  · intro s hlt
    unfold redoStep
    rw [if_pos hlt]
    exact ⟨rfl, rfl, rfl⟩
  · intro s hs
    obtain ⟨h1, h2, _, _⟩ := reachable_inv features b? c s hs
    exact ⟨by omega, by omega⟩

/-- Witness for C4: the implications at concrete states -- `undo` and `redo`
are no-ops on the initial state, and after one push `undo` restores the
baseline snapshot. -/
theorem history_manager_contract_witness :
    undoStep initState = initState ∧
    redoStep initState = initState ∧
    (0 < (pushSnapshot initState [(0, ⟨MC4_INSTALLED, NONE⟩)]).historyIndex ∧
      (undoStep (pushSnapshot initState [(0, ⟨MC4_INSTALLED, NONE⟩)])).panelStates =
        (pushSnapshot initState [(0, ⟨MC4_INSTALLED, NONE⟩)]).history.getD 0 []) := by
  have h := history_manager_contract [] Option.none ⟨1, 1⟩
  refine ⟨h.2.1 initState rfl, h.2.2.2.1 initState (by decide), by decide,
    (h.2.2.1 (pushSnapshot initState [(0, ⟨MC4_INSTALLED, NONE⟩)]) (by decide)).2.1⟩

/-- C5: from a reachable state whose index sits at the top of the history
(as it does after any push), `k` undos followed by `k` redos restore the
exact panel-state mapping, for any `k` at most `history length - 1`; and a
mutation (click push) performed after an undo truncates the redo tail, so a
subsequent `redo` is a no-op on the state the mutation produced. -/
theorem undo_redo_inverse (features : List Feature) (b? : Option Bounds)
    (c : Canvas) (s : AppState) (h : Reachable features b? c s)
    (hTop : s.historyIndex = s.history.length - 1) :
    (∀ k, k ≤ s.history.length - 1 →
      (redoStep^[k] (undoStep^[k] s)).panelStates = s.panelStates) ∧
    (∀ d i sd, redoStep (clickStep d i sd (undoStep s)) = clickStep d i sd (undoStep s) ∧
      (clickStep d i sd (undoStep s)).history.length =
        (undoStep s).historyIndex + 2) := by
  have hinv := reachable_inv features b? c s h
  constructor
  · intro k hk
    have hk2 : k ≤ s.historyIndex := by omega
    rw [undo_iter features s hinv k hk2,
      redo_iter s.history (s.historyIndex - k) k (by
        obtain ⟨h1, h2, _, _⟩ := hinv
        omega)]
    dsimp only
    rw [show s.historyIndex - k + k = s.historyIndex from by omega]
    exact hinv.2.2.1
  · intro d i sd
    constructor
    · exact redo_after_push (undoStep s) _
    · exact push_history_length (undoStep s) _ (inv_undo features s hinv).2.1

/-- Witness for C5: at the reachable one-click state (index 1 = length - 1),
one undo followed by one redo restores the mapping, and a click after an
undo leaves redo a no-op. -/
theorem undo_redo_inverse_witness :
    Reachable [⟨[(0,1),(1,1),(1,0),(0,0)]⟩] (Option.some ⟨0,1,0,1⟩) ⟨1,1⟩
      (clickStep 1 0 Side.left initState) ∧
    (clickStep 1 0 Side.left initState).historyIndex =
      (clickStep 1 0 Side.left initState).history.length - 1 ∧
    (1 : ℕ) ≤ (clickStep 1 0 Side.left initState).history.length - 1 ∧
    (redoStep^[1] (undoStep^[1] (clickStep 1 0 Side.left initState))).panelStates =
      (clickStep 1 0 Side.left initState).panelStates ∧
    redoStep (clickStep 1 0 Side.right (undoStep (clickStep 1 0 Side.left initState))) =
      clickStep 1 0 Side.right (undoStep (clickStep 1 0 Side.left initState)) := by
  have hreach : Reachable [⟨[(0,1),(1,1),(1,0),(0,0)]⟩] (Option.some ⟨0,1,0,1⟩) ⟨1,1⟩
      (clickStep 1 0 Side.left initState) :=
    Reachable.click 1 0 Side.left Reachable.init (by decide) (by decide)
  have h := undo_redo_inverse [⟨[(0,1),(1,1),(1,0),(0,0)]⟩] (Option.some ⟨0,1,0,1⟩)
    ⟨1,1⟩ (clickStep 1 0 Side.left initState) hreach (by decide)
  exact ⟨hreach, by decide, by decide, h.1 1 (by decide), (h.2 1 0 Side.right).1⟩

/-- C3 counterexample: the claim says a box selection advances each selected
end one step of the cycle `NONE -> MC4_INSTALLED -> TERMINATED -> NONE`, so a
`TERMINATED` end would wrap to `NONE`.  Selecting the single loaded panel
while both its ends are `TERMINATED` leaves both ends `TERMINATED` -- the
selection step saturates instead of cycling. -/
theorem applySelection_terminated_cex :
    getPanel (applySelection [⟨[(0,1),(1,1),(1,0),(0,0)]⟩] (Option.some ⟨0,1,0,1⟩)
      ⟨1,1⟩ ⟨0,0⟩ ⟨2,2⟩ false
      ⟨[(0, ⟨TERMINATED, TERMINATED⟩)], [[], [(0, ⟨TERMINATED, TERMINATED⟩)]], 1⟩
      ).panelStates 0 = ⟨TERMINATED, TERMINATED⟩ ∧
    cycleNext TERMINATED = NONE ∧
    (⟨TERMINATED, TERMINATED⟩ : EndPair) ≠ (⟨NONE, NONE⟩ : EndPair) := by
  have hsel : isPanelInSelection [⟨[(0,1),(1,1),(1,0),(0,0)]⟩] (Option.some ⟨0,1,0,1⟩)
      ⟨1,1⟩ 0 ⟨0,0⟩ ⟨2,2⟩ = true := by
    norm_num [isPanelInSelection, getPanelEnds, uniquePts, toSvgCoords, mkEdges,
      stableSort, insertSorted, leLen, leLex, isPointInBox, eps9, eps6,
      List.range_succ]
  refine ⟨?_, rfl, by decide⟩
  unfold applySelection
  rw [if_neg (by norm_num)]
  dsimp only
  have hr1 : List.range ([⟨[(0,1),(1,1),(1,0),(0,0)]⟩] : List Feature).length = [0] := rfl
  rw [if_pos (by
      rw [hr1]
      simp only [List.any_cons, List.any_nil, Bool.or_false]
      exact hsel),
    hr1, List.foldl_cons, if_pos hsel, List.foldl_nil]
  show getPanel (setPanel [(0, ⟨TERMINATED, TERMINATED⟩)] 0 _) 0 = _
  rw [getPanel_setPanel_self]
  decide

/-- C3 amended: a box selection above the minimum drag size advances each
selected end by exactly one step of the saturating chain
`NONE -> MC4_INSTALLED -> TERMINATED` (a `TERMINATED` end stays `TERMINATED`
rather than wrapping to `NONE`), each end independently from its own current
state; the unselect gesture resets both ends of every selected panel to
`NONE`; panels outside the selection keep their state. -/
theorem applySelection_saturating (features : List Feature) (b? : Option Bounds)
    (c : Canvas) (ss se : Point) (unselect : Bool) (s : AppState) (i : ℕ)
    (hbig : ¬ (|se.x - ss.x| < 1/20 ∧ |se.y - ss.y| < 1/20)) :
    (isPanelInSelection features b? c i ss se = true →
      getPanel (applySelection features b? c ss se unselect s).panelStates i =
        if unselect then (⟨NONE, NONE⟩ : EndPair)
        else ⟨satNext (getPanel s.panelStates i).left,
              satNext (getPanel s.panelStates i).right⟩) ∧
    (isPanelInSelection features b? c i ss se = false →
      getPanel (applySelection features b? c ss se unselect s).panelStates i =
        getPanel s.panelStates i) := by
  have hps : (applySelection features b? c ss se unselect s).panelStates =
      (List.range features.length).foldl
        (fun m j => if isPanelInSelection features b? c j ss se then
          setPanel m j (selValue (getPanel s.panelStates j) unselect) else m)
        s.panelStates := by
    unfold applySelection
    rw [if_neg hbig]
    dsimp only
    split
    · rfl
    · rfl
  rw [hps, getPanel_foldl_sel _ _ _ (List.nodup_range features.length) s.panelStates i]
  constructor
  · intro hsel
    rw [if_pos ⟨List.mem_range.mpr (selected_imp_renderable features b? c i ss se hsel).1,
      hsel⟩]
    rfl
  · intro hsel
    rw [if_neg (fun hc => by rw [hsel] at hc; exact Bool.noConfusion hc.2)]

/-- Witness for C3 (amended): unselect-resetting and saturating advance at a
concrete state -- box-selecting the loaded panel with `(MC4_INSTALLED, NONE)`
ends advances them to `(TERMINATED, MC4_INSTALLED)`. -/
theorem applySelection_saturating_witness :
    ¬ ((|(2 : ℚ) - 0| < 1/20) ∧ (|(2 : ℚ) - 0| < 1/20)) ∧
    isPanelInSelection [⟨[(0,1),(1,1),(1,0),(0,0)]⟩] (Option.some ⟨0,1,0,1⟩) ⟨1,1⟩ 0
      ⟨0,0⟩ ⟨2,2⟩ = true ∧
    getPanel (applySelection [⟨[(0,1),(1,1),(1,0),(0,0)]⟩] (Option.some ⟨0,1,0,1⟩)
      ⟨1,1⟩ ⟨0,0⟩ ⟨2,2⟩ false
      ⟨[(0, ⟨MC4_INSTALLED, NONE⟩)], [[], [(0, ⟨MC4_INSTALLED, NONE⟩)]], 1⟩
      ).panelStates 0 = ⟨TERMINATED, MC4_INSTALLED⟩ := by
  have hbig : ¬ ((|(2 : ℚ) - 0| < 1/20) ∧ (|(2 : ℚ) - 0| < 1/20)) := by norm_num
  have hsel : isPanelInSelection [⟨[(0,1),(1,1),(1,0),(0,0)]⟩] (Option.some ⟨0,1,0,1⟩)
      ⟨1,1⟩ 0 ⟨0,0⟩ ⟨2,2⟩ = true := by
    norm_num [isPanelInSelection, getPanelEnds, uniquePts, toSvgCoords, mkEdges,
      stableSort, insertSorted, leLen, leLex, isPointInBox, eps9, eps6,
      List.range_succ]
  refine ⟨hbig, hsel, ?_⟩
  rw [(applySelection_saturating [⟨[(0,1),(1,1),(1,0),(0,0)]⟩] (Option.some ⟨0,1,0,1⟩)
    ⟨1,1⟩ ⟨0,0⟩ ⟨2,2⟩ false
    ⟨[(0, ⟨MC4_INSTALLED, NONE⟩)], [[], [(0, ⟨MC4_INSTALLED, NONE⟩)]], 1⟩ 0
    hbig).1 hsel]
  decide

/-- C6: with a fixed non-degenerate bounding box and a fixed positive canvas
size, the canvas-to-geographic transform followed by the geographic-to-canvas
transform returns every canvas point exactly (exact over the rationals, hence
within any floating tolerance), the canvas x grows strictly with longitude,
and the canvas y falls strictly as latitude grows. -/
theorem coord_roundtrip (b : Bounds) (c : Canvas) (x y : ℚ)
    (hlng : b.minLng < b.maxLng) (hlat : b.minLat < b.maxLat)
    (hw : 0 < c.width) (hh : 0 < c.height) :
    toSvgCoords (Option.some b) c (fromSvgCoords (Option.some b) c x y).1
      (fromSvgCoords (Option.some b) c x y).2 = ⟨x, y⟩ ∧
    (∀ l1 l2 la, l1 < l2 →
      (toSvgCoords (Option.some b) c l1 la).x <
        (toSvgCoords (Option.some b) c l2 la).x) ∧
    (∀ la1 la2 l, la1 < la2 →
      (toSvgCoords (Option.some b) c l la2).y <
        (toSvgCoords (Option.some b) c l la1).y) := by
  have hdl : b.maxLng - b.minLng ≠ 0 :=
    ne_of_gt (show (0:ℚ) < b.maxLng - b.minLng by linarith)
  have hdt : b.maxLat - b.minLat ≠ 0 :=
    ne_of_gt (show (0:ℚ) < b.maxLat - b.minLat by linarith)
  have hwne : c.width ≠ 0 := ne_of_gt hw
  have hhne : c.height ≠ 0 := ne_of_gt hh
  refine ⟨?_, ?_, ?_⟩
  · unfold toSvgCoords fromSvgCoords
    dsimp only
    rw [Point.mk.injEq]
    constructor
    · field_simp
      ring
    · field_simp
      ring
  · intro l1 l2 la hl
    unfold toSvgCoords
    dsimp only
    have h1 : (l1 - b.minLng) / (b.maxLng - b.minLng) <
        (l2 - b.minLng) / (b.maxLng - b.minLng) := by
      apply div_lt_div_of_pos_right (by linarith) (by linarith)
    exact mul_lt_mul_of_pos_right h1 hw
  · intro la1 la2 l hl
    unfold toSvgCoords
    dsimp only
    have h1 : (b.maxLat - la2) / (b.maxLat - b.minLat) <
        (b.maxLat - la1) / (b.maxLat - b.minLat) := by
      apply div_lt_div_of_pos_right (by linarith) (by linarith)
    exact mul_lt_mul_of_pos_right h1 hh

/-- Witness for C6: the round trip at the concrete canvas point (1/2, 1/3)
with bounding box [0,1]x[0,1] and a 2x3 canvas. -/
theorem coord_roundtrip_witness :
    (0 : ℚ) < 1 ∧ (0 : ℚ) < 2 ∧ (0 : ℚ) < 3 ∧
    toSvgCoords (Option.some ⟨0,1,0,1⟩) ⟨2,3⟩
      (fromSvgCoords (Option.some ⟨0,1,0,1⟩) ⟨2,3⟩ (1/2) (1/3)).1
      (fromSvgCoords (Option.some ⟨0,1,0,1⟩) ⟨2,3⟩ (1/2) (1/3)).2 = ⟨1/2, 1/3⟩ := by
  exact ⟨zero_lt_one, two_pos, three_pos,
    (coord_roundtrip ⟨0,1,0,1⟩ ⟨2,3⟩ (1/2) (1/3) zero_lt_one zero_lt_one
      two_pos three_pos).1⟩

/-- C7 counterexample: the claim says the transform guards the degenerate
bounding box and returns finite coordinates; with `maxLng = minLng = 0` and
longitude 5 the unguarded division produces Infinity, so the x output is not
finite. -/
theorem degenerate_transform_cex :
    ((toSvgCoordsJS ⟨0, 0, 0, 1⟩ ⟨1200, 900⟩ 5 0).1).isFinite = false := by
  norm_num [toSvgCoordsJS, jsub, jdiv, jmul, JF.isFinite]

/-- C7 amended: the coordinate transform has no degeneracy guard.  Whenever
`maxLng = minLng`, the x coordinate it computes is non-finite for every
longitude (NaN when `lng = minLng`, a signed Infinity otherwise), instead of
the ratio being treated as 0. -/
theorem degenerate_transform_nonfinite (b : Bounds) (c : Canvas) (lng lat : ℚ)
    (hdeg : b.maxLng = b.minLng) :
    ((toSvgCoordsJS b c lng lat).1).isFinite = false := by
  have h1 : jsub (JF.num b.maxLng) (JF.num b.minLng) = JF.num 0 := by
    rw [hdeg]
    simp [jsub]
  dsimp only [toSvgCoordsJS]
  rw [h1, show jsub (JF.num lng) (JF.num b.minLng) = JF.num (lng - b.minLng) from rfl]
  rcases lt_trichotomy (lng - b.minLng) 0 with hlt | heq | hgt
  · rw [show jdiv (JF.num (lng - b.minLng)) (JF.num 0) = JF.negInf by
      simp [jdiv, hlt.ne, not_lt.mpr hlt.le]]
    by_cases hw : c.width = 0
    · simp [jmul, hw, JF.isFinite]
    · by_cases hw2 : 0 < c.width <;> simp [jmul, hw, hw2, JF.isFinite]
  · rw [show jdiv (JF.num (lng - b.minLng)) (JF.num 0) = JF.nan by
      simp [jdiv, heq]]
    simp [jmul, JF.isFinite]
  · rw [show jdiv (JF.num (lng - b.minLng)) (JF.num 0) = JF.posInf by
      simp [jdiv, hgt.ne.symm, hgt]]
    by_cases hw : c.width = 0
    · simp [jmul, hw, JF.isFinite]
    · by_cases hw2 : 0 < c.width <;> simp [jmul, hw, hw2, JF.isFinite]

/-- Witness for C7 (amended): the non-finite x output at a concrete
degenerate bounding box and a different longitude (here the NaN case,
`lng = minLng = 3`). -/
theorem degenerate_transform_nonfinite_witness :
    (3 : ℚ) = 3 ∧
    ((toSvgCoordsJS ⟨3, 3, 0, 1⟩ ⟨1200, 900⟩ 3 0).1).isFinite = false :=
  ⟨rfl, degenerate_transform_nonfinite ⟨3, 3, 0, 1⟩ ⟨1200, 900⟩ 3 0 rfl⟩

/-- C8 counterexample: the claim says a polygon with fewer than 2 vertices
contributes nothing to the aggregate counters; with a single such invalid
feature loaded, `mc4.total` is 2, not 0 -- the totals count every loaded
feature, valid or not. -/
theorem invalid_polygon_total_cex :
    (computeCounters [⟨[(0,0)]⟩] []).mc4.total = 2 ∧ (2 : ℤ) ≠ 0 := by
  constructor
  · decide
  · decide

/-- C8 amended: a polygon feature with fewer than 2 vertices renders nothing,
is never selected by any drag rectangle, and never acquires an entry in any
reachable panel-state mapping (so it contributes nothing to the completed
counts) -- but it still contributes two ends to `mc4.total` and
`termination.total`, which count every loaded feature. -/
theorem invalid_polygon_skipped (features : List Feature) (b? : Option Bounds)
    (c : Canvas) (i : ℕ) (hshort : (features.getD i ⟨[]⟩).coords.length < 2) :
    renderPanel (features.getD i ⟨[]⟩) b? c = Option.none ∧
    (∀ ss se, isPanelInSelection features b? c i ss se = false) ∧
    (∀ s, Reachable features b? c s →
      getPanel s.panelStates i = EndPair.dflt ∧
      (computeCounters features s.panelStates).mc4.total =
        (features.length : ℤ) * 2 ∧
      (computeCounters features s.panelStates).termination.total =
        (features.length : ℤ) * 2) := by
  refine ⟨by unfold renderPanel; rw [if_pos hshort], fun ss se => ?_, fun s hs => ?_⟩
  · cases h2 : isPanelInSelection features b? c i ss se
    · rfl
    · have := (selected_imp_renderable features b? c i ss se h2).2
      omega
  · refine ⟨?_, rfl, rfl⟩
    have hOK := snapOK_current features s (reachable_inv features b? c s hs)
    apply getPanel_eq_dflt_of_not_mem
    intro hmem
    rcases List.mem_map.mp hmem with ⟨p, hp, hpi⟩
    have h2 := (hOK.2 p hp).2
    rw [hpi] at h2
    omega

/-- Witness for C8 (amended): the single-vertex feature at index 0 renders
nothing, is not selected by a concrete drag rectangle, and holds no entry in
the initial state, while the totals still count its two ends. -/
theorem invalid_polygon_skipped_witness :
    (([⟨[(0,0)]⟩] : List Feature).getD 0 ⟨[]⟩).coords.length < 2 ∧
    renderPanel (([⟨[(0,0)]⟩] : List Feature).getD 0 ⟨[]⟩) (Option.some ⟨0,1,0,1⟩)
      ⟨1,1⟩ = Option.none ∧
    isPanelInSelection [⟨[(0,0)]⟩] (Option.some ⟨0,1,0,1⟩) ⟨1,1⟩ 0 ⟨0,0⟩ ⟨2,2⟩ = false ∧
    getPanel initState.panelStates 0 = EndPair.dflt := by
  have h := invalid_polygon_skipped [⟨[(0,0)]⟩] (Option.some ⟨0,1,0,1⟩) ⟨1,1⟩ 0
    (by decide)
  exact ⟨by decide, h.1, h.2.1 ⟨0,0⟩ ⟨2,2⟩, (h.2.2 initState Reachable.init).1⟩

lemma pairwise_insertSorted (x : Edge) (l : List Edge)
    (h : l.Pairwise (fun a b : Edge => a.lenSq ≤ b.lenSq)) :
    (insertSorted leLen x l).Pairwise (fun a b : Edge => a.lenSq ≤ b.lenSq) := by
  induction l with
  | nil => simp [insertSorted]
  | cons y ys ih =>
    rw [List.pairwise_cons] at h
    rw [insertSorted]
    by_cases hle : leLen x y = true
    · rw [if_pos hle]
      have hxy : x.lenSq ≤ y.lenSq := by simpa [leLen] using hle
      rw [List.pairwise_cons]
      refine ⟨fun z hz => ?_, List.pairwise_cons.mpr h⟩
      rcases List.mem_cons.mp hz with rfl | hz2
      · exact hxy
      · exact le_trans hxy (h.1 z hz2)
    · rw [if_neg hle]
      have hyx : y.lenSq ≤ x.lenSq :=
        le_of_not_le (by simpa [leLen] using hle)
      rw [List.pairwise_cons]
      refine ⟨fun z hz => ?_, ih h.2⟩
      rcases List.mem_cons.mp
        ((insertSorted_perm leLen x ys).mem_iff.mp hz) with rfl | hz3
      · exact hyx
      · exact h.1 z hz3

lemma pairwise_stableSort (l : List Edge) :
    (stableSort leLen l).Pairwise (fun a b : Edge => a.lenSq ≤ b.lenSq) := by
  induction l with
  | nil => simp [stableSort]
  | cons x xs ih => exact pairwise_insertSorted x _ ih

lemma take_two_shortest (l : List Edge) (h : 2 ≤ l.length) :
    ∃ a b others, (stableSort leLen l).take 2 = [a, b] ∧
      l.Perm (a :: b :: others) ∧
      a.lenSq ≤ b.lenSq ∧
      (∀ e ∈ others, a.lenSq ≤ e.lenSq ∧ b.lenSq ≤ e.lenSq) := by
  have hlen : 2 ≤ (stableSort leLen l).length := by
    rw [stableSort_length]
    exact h
  obtain ⟨a, b, t, hs⟩ : ∃ a b t, stableSort leLen l = a :: b :: t := by
    rcases h2 : stableSort leLen l with _ | ⟨a, _ | ⟨b, t⟩⟩
    · rw [h2] at hlen
      exact absurd hlen (by simp)
    · rw [h2] at hlen
      exact absurd hlen (by simp)
    · exact ⟨a, b, t, rfl⟩
  have hpw := pairwise_stableSort l
  rw [hs, List.pairwise_cons] at hpw
  obtain ⟨ha1, hpw2⟩ := hpw
  rw [List.pairwise_cons] at hpw2
  obtain ⟨hb1, _⟩ := hpw2
  have hperm : l.Perm (a :: b :: t) := by
    have hp := (stableSort_perm leLen l).symm
    rw [hs] at hp
    exact hp
  exact ⟨a, b, t, by rw [hs]; rfl, hperm, ha1 b (List.mem_cons_self b t),
    fun e he => ⟨ha1 e (List.mem_cons_of_mem b he), hb1 e he⟩⟩

lemma stableSort_lex_pair (a b : Edge) :
    ∃ e1 e2, stableSort leLex [a, b] = [e1, e2] ∧
      (e1 = a ∧ e2 = b ∨ e1 = b ∧ e2 = a) ∧
      (e1.center.x < e2.center.x ∨
        (e1.center.x = e2.center.x ∧ e1.center.y ≤ e2.center.y)) := by
  rw [stableSort_pair]
  by_cases h : leLex a b = true
  · rw [if_pos h]
    exact ⟨a, b, rfl, Or.inl ⟨rfl, rfl⟩, by simpa [leLex] using h⟩
  · rw [if_neg h]
    have h2 : ¬ (a.center.x < b.center.x ∨
        (a.center.x = b.center.x ∧ a.center.y ≤ b.center.y)) := by
      simpa [leLex] using h
    push_neg at h2
    refine ⟨b, a, rfl, Or.inr ⟨rfl, rfl⟩, ?_⟩
    rcases lt_trichotomy b.center.x a.center.x with h3 | h3 | h3
    · exact Or.inl h3
    · exact Or.inr ⟨h3, le_of_lt (h2.2 h3.symm)⟩
    · exact absurd h3 (not_lt.mpr h2.1)

/-- C9 counterexample: the claim says the end resolver gives the same
left/right assignment regardless of the starting rotation of the vertex
list.  On a square (all four edge lengths tie) the stable length sort keeps
list order, so the two "shortest" edges depend on the rotation: the vertex
list rotated by one yields a different `left` anchor for the same closed
shape. -/
theorem getPanelEnds_rotation_cex :
    (getPanelEnds [⟨[(0,1),(1,1),(1,0),(0,0)]⟩] (Option.some ⟨0,1,0,1⟩) ⟨1,1⟩ 0).map
        Ends.left ≠
      (getPanelEnds [⟨[(1,1),(1,0),(0,0),(0,1)]⟩] (Option.some ⟨0,1,0,1⟩) ⟨1,1⟩ 0).map
        Ends.left := by
  norm_num [getPanelEnds, uniquePts, toSvgCoords, mkEdges, stableSort, insertSorted,
    leLen, leLex, eps9, List.range_succ]

/-- C9 amended: for every panel whose deduplicated vertex list has at least
two points, the resolver returns exactly two ends taken from the two shortest
edges of the polygon -- the chosen pair together with the remaining edges is
a permutation of the edge list and every remaining edge is at least as long
as each chosen one (tie-robust minimality; lengths compared squared, which
agrees with the source's hypot comparisons) -- with the deterministic
assignment left = smaller midpoint x (ties broken by smaller y), and the
centroid is the arithmetic mean of the vertices; on a fixed vertex list the
resolver is a pure function, but the assignment is not rotation-invariant
when edge lengths tie (see the square counterexample). -/
theorem getPanelEnds_two_ends (features : List Feature) (b? : Option Bounds)
    (c : Canvas) (i : ℕ) (panel : Feature)
    (hg : features.get? i = Option.some panel)
    (hlen : 2 ≤ (uniquePts panel.coords).length) :
    ∃ ends e1 e2,
      getPanelEnds features b? c i = Option.some ends ∧
      e1 ∈ mkEdges ((uniquePts panel.coords).map (fun q => toSvgCoords b? c q.1 q.2)) ∧
      e2 ∈ mkEdges ((uniquePts panel.coords).map (fun q => toSvgCoords b? c q.1 q.2)) ∧
      (∃ others,
        (mkEdges ((uniquePts panel.coords).map
          (fun q => toSvgCoords b? c q.1 q.2))).Perm (e1 :: e2 :: others) ∧
        ∀ e ∈ others, e1.lenSq ≤ e.lenSq ∧ e2.lenSq ≤ e.lenSq) ∧
      ends.left = e1.center ∧ ends.right = e2.center ∧
      (e1.center.x < e2.center.x ∨
        (e1.center.x = e2.center.x ∧ e1.center.y ≤ e2.center.y)) ∧
      ends.center.x =
        (((uniquePts panel.coords).map (fun q => toSvgCoords b? c q.1 q.2)).map
          Point.x).sum /
        ((uniquePts panel.coords).map (fun q => toSvgCoords b? c q.1 q.2)).length ∧
      ends.center.y =
        (((uniquePts panel.coords).map (fun q => toSvgCoords b? c q.1 q.2)).map
          Point.y).sum /
        ((uniquePts panel.coords).map (fun q => toSvgCoords b? c q.1 q.2)).length ∧
      ends.allPoints =
        (uniquePts panel.coords).map (fun q => toSvgCoords b? c q.1 q.2) := by
  have hplen : 2 ≤ (mkEdges ((uniquePts panel.coords).map
      (fun q => toSvgCoords b? c q.1 q.2))).length := by
    rw [mkEdges, List.length_map, List.length_range, List.length_map]
    exact hlen
  obtain ⟨a, b, others, htake, hperm, hab, hothers⟩ := take_two_shortest _ hplen
  obtain ⟨e1, e2, hpair, hor, hlex⟩ := stableSort_lex_pair a b
  have ha : a ∈ mkEdges ((uniquePts panel.coords).map
      (fun q => toSvgCoords b? c q.1 q.2)) :=
    hperm.mem_iff.mpr (List.mem_cons_self a (b :: others))
  have hb : b ∈ mkEdges ((uniquePts panel.coords).map
      (fun q => toSvgCoords b? c q.1 q.2)) :=
    hperm.mem_iff.mpr (List.mem_cons_of_mem a (List.mem_cons_self b others))
  refine ⟨⟨e1.center, e2.center,
      ⟨(((uniquePts panel.coords).map (fun q => toSvgCoords b? c q.1 q.2)).map
          Point.x).sum /
        ((uniquePts panel.coords).map (fun q => toSvgCoords b? c q.1 q.2)).length,
       (((uniquePts panel.coords).map (fun q => toSvgCoords b? c q.1 q.2)).map
          Point.y).sum /
        ((uniquePts panel.coords).map (fun q => toSvgCoords b? c q.1 q.2)).length⟩,
      (uniquePts panel.coords).map (fun q => toSvgCoords b? c q.1 q.2)⟩,
    e1, e2, ?_, ?_, ?_, ?_, rfl, rfl, hlex, rfl, rfl, rfl⟩
  · unfold getPanelEnds
    rw [hg]
    dsimp only
    rw [htake, hpair]
    rfl
  · rcases hor with ⟨rfl, _⟩ | ⟨rfl, _⟩
    · exact ha
    · exact hb
  · rcases hor with ⟨_, rfl⟩ | ⟨_, rfl⟩
    · exact hb
    · exact ha
  · refine ⟨others, ?_, ?_⟩
    · rcases hor with ⟨rfl, rfl⟩ | ⟨rfl, rfl⟩
      · exact hperm
      · exact hperm.trans (List.Perm.swap e1 e2 others)
    · intro e he
      rcases hor with ⟨rfl, rfl⟩ | ⟨rfl, rfl⟩
      · exact hothers e he
      · exact ⟨(hothers e he).2, (hothers e he).1⟩

/-- Witness for C9 (amended): the resolver at the concrete square panel --
the hypotheses hold and the resolver returns ends with the stated
properties. -/
theorem getPanelEnds_two_ends_witness :
    ([⟨[(0,1),(1,1),(1,0),(0,0)]⟩] : List Feature).get? 0 =
      Option.some ⟨[(0,1),(1,1),(1,0),(0,0)]⟩ ∧
    2 ≤ (uniquePts ([(0,1),(1,1),(1,0),(0,0)] : List (ℚ × ℚ))).length ∧
    (∃ ends e1 e2,
      getPanelEnds [⟨[(0,1),(1,1),(1,0),(0,0)]⟩] (Option.some ⟨0,1,0,1⟩) ⟨1,1⟩ 0 =
        Option.some ends ∧
      e1 ∈ mkEdges ((uniquePts ([(0,1),(1,1),(1,0),(0,0)] : List (ℚ × ℚ))).map
        (fun q => toSvgCoords (Option.some ⟨0,1,0,1⟩) ⟨1,1⟩ q.1 q.2)) ∧
      e2 ∈ mkEdges ((uniquePts ([(0,1),(1,1),(1,0),(0,0)] : List (ℚ × ℚ))).map
        (fun q => toSvgCoords (Option.some ⟨0,1,0,1⟩) ⟨1,1⟩ q.1 q.2)) ∧
      (∃ others,
        (mkEdges ((uniquePts ([(0,1),(1,1),(1,0),(0,0)] : List (ℚ × ℚ))).map
          (fun q => toSvgCoords (Option.some ⟨0,1,0,1⟩) ⟨1,1⟩ q.1 q.2))).Perm
          (e1 :: e2 :: others) ∧
        ∀ e ∈ others, e1.lenSq ≤ e.lenSq ∧ e2.lenSq ≤ e.lenSq) ∧
      ends.left = e1.center ∧ ends.right = e2.center ∧
      (e1.center.x < e2.center.x ∨
        (e1.center.x = e2.center.x ∧ e1.center.y ≤ e2.center.y)) ∧
      ends.center.x =
        (((uniquePts ([(0,1),(1,1),(1,0),(0,0)] : List (ℚ × ℚ))).map
          (fun q => toSvgCoords (Option.some ⟨0,1,0,1⟩) ⟨1,1⟩ q.1 q.2)).map
          Point.x).sum /
        ((uniquePts ([(0,1),(1,1),(1,0),(0,0)] : List (ℚ × ℚ))).map
          (fun q => toSvgCoords (Option.some ⟨0,1,0,1⟩) ⟨1,1⟩ q.1 q.2)).length ∧
      ends.center.y =
        (((uniquePts ([(0,1),(1,1),(1,0),(0,0)] : List (ℚ × ℚ))).map
          (fun q => toSvgCoords (Option.some ⟨0,1,0,1⟩) ⟨1,1⟩ q.1 q.2)).map
          Point.y).sum /
        ((uniquePts ([(0,1),(1,1),(1,0),(0,0)] : List (ℚ × ℚ))).map
          (fun q => toSvgCoords (Option.some ⟨0,1,0,1⟩) ⟨1,1⟩ q.1 q.2)).length ∧
      ends.allPoints =
        (uniquePts ([(0,1),(1,1),(1,0),(0,0)] : List (ℚ × ℚ))).map
          (fun q => toSvgCoords (Option.some ⟨0,1,0,1⟩) ⟨1,1⟩ q.1 q.2)) := by
  have hlen : 2 ≤ (uniquePts ([(0,1),(1,1),(1,0),(0,0)] : List (ℚ × ℚ))).length := by
    norm_num [uniquePts, eps9]
  exact ⟨rfl, hlen,
    getPanelEnds_two_ends [⟨[(0,1),(1,1),(1,0),(0,0)]⟩] (Option.some ⟨0,1,0,1⟩) ⟨1,1⟩ 0
      ⟨[(0,1),(1,1),(1,0),(0,0)]⟩ rfl hlen⟩

/-- C10: in note mode, a plain click with no existing note strictly within
the 5-pixel radius appends exactly one fresh note at the exact click
coordinates and opens no editor; when some note lies strictly within the
radius, the first such note's editor is opened and the note list is
unchanged. -/
theorem note_click_behavior (notes : List Note) (p : Point) (now : ℕ) :
    ((∀ nt ∈ notes, ¬ (noteDistSq nt p < 25)) →
      noteClickUp notes p now = (notes ++ [⟨now, p.x, p.y, ""⟩], Option.none)) ∧
    (∀ nt, notes.find? (fun n => noteDistSq n p < 25) = Option.some nt →
      noteClickUp notes p now = (notes, Option.some nt) ∧
      nt ∈ notes ∧ noteDistSq nt p < 25) := by
  constructor
  · intro h
    unfold noteClickUp
    rw [List.find?_eq_none.mpr (fun x hx => by simpa using h x hx)]
  · intro nt hfind
    refine ⟨?_, List.mem_of_find?_eq_some hfind, by simpa using List.find?_some hfind⟩
    unfold noteClickUp
    rw [hfind]

/-- Witness for C10: with one note at (100, 100), a click at (100, 103)
(distance 3) opens that note's editor and keeps the list, while a click at
(150, 100) (distance 50) appends a fresh note at exactly (150, 100). -/
theorem note_click_behavior_witness :
    ([⟨1, 100, 100, ""⟩] : List Note).find?
      (fun n => noteDistSq n ⟨100, 103⟩ < 25) = Option.some ⟨1, 100, 100, ""⟩ ∧
    noteClickUp [⟨1, 100, 100, ""⟩] ⟨100, 103⟩ 2 =
      ([⟨1, 100, 100, ""⟩], Option.some ⟨1, 100, 100, ""⟩) ∧
    (∀ nt ∈ ([⟨1, 100, 100, ""⟩] : List Note), ¬ (noteDistSq nt ⟨150, 100⟩ < 25)) ∧
    noteClickUp [⟨1, 100, 100, ""⟩] ⟨150, 100⟩ 2 =
      ([⟨1, 100, 100, ""⟩] ++ [⟨2, (150 : ℚ), (100 : ℚ), ""⟩], Option.none) := by
  have hfind : ([⟨1, 100, 100, ""⟩] : List Note).find?
      (fun n => noteDistSq n ⟨100, 103⟩ < 25) = Option.some ⟨1, 100, 100, ""⟩ := by
    rw [List.find?_cons_of_pos]
    norm_num [noteDistSq]
  have hfar : ∀ nt ∈ ([⟨1, 100, 100, ""⟩] : List Note),
      ¬ (noteDistSq nt ⟨150, 100⟩ < 25) := by
    intro nt hnt
    rcases List.mem_singleton.mp hnt with rfl
    norm_num [noteDistSq]
  exact ⟨hfind,
    ((note_click_behavior [⟨1, 100, 100, ""⟩] ⟨100, 103⟩ 2).2 ⟨1, 100, 100, ""⟩ hfind).1,
    hfar,
    (note_click_behavior [⟨1, 100, 100, ""⟩] ⟨150, 100⟩ 2).1 hfar⟩

end Mc4Panel
